import Mathlib

/-!
Verification development for the project-finder repository.

The Rust source under `src/` is shallowly embedded here:

* A filesystem path (`std::path::PathBuf`) is modelled as its list of
  components (`Path := List String`); an absolute path `/r/a` is `["r", "a"]`
  and the filesystem root `/` is `[]`.  `PathBuf::parent` drops the last
  component (and is `None` at the root), `Path::starts_with` is component-wise
  list prefix, and `PathBuf::join` is list append — exactly the semantics the
  Rust standard library gives for plain multi-component absolute paths, which
  are the only paths the program manipulates.
* The filesystem is a structure of pure functions (`FS`): `isDir` models
  `Path::is_dir`, `pathExists` models `Path::exists` / `tokio::fs::metadata`
  succeeding, and `content` models `tokio::fs::read_to_string` (with `none`
  standing for a read failure).
* The external `fd` subprocess (the Search Provider) is a structure of
  functions (`SearchProvider`) returning either a spawn/IO failure or the
  pair (stdout lines already parsed as paths, exit-status success flag).
* The fixed regular expressions appearing in the source are embedded by an
  inductive `Pat` together with their exact matching semantics in the Rust
  `regex` crate.  Note that in that crate, without the multi-line flag `(?m)`,
  the anchor `^` matches only at the beginning of the haystack, so the source
  pattern `^\[workspace\]` holds iff the file content literally starts with
  the text `[workspace]`.
* The `tokio` task structure of `find_projects` is embedded as explicit state
  passing in the program order of the source: per-path validation and task
  spawning happen in one loop (recorded by `validateAndSpawn`), the spawned
  tasks then run and mutate the shared discovered-project set
  (`runTasks`), and their errors are aggregated exactly as in the source.
  The memoizing caches (`WorkspaceCache`, `RootCache`) are write-once and
  idempotent, so the cached functions are embedded directly as the pure
  functions they memoize.
-/

/-- A filesystem path as its list of components; `[]` is the root `/`. -/
abbrev FPath := List String

/-- `PathBuf::parent`: drop the last component; `None` at the filesystem root. -/
def parent? : FPath → Option FPath
  | [] => none
  | l => some l.dropLast

/-- `Path::file_name` (as a UTF-8 string): the last component. -/
def fileName? (p : FPath) : Option String :=
  p.getLast?

/-- The strict ancestors of a directory, nearest first, ending at the
filesystem root `[]`: exactly the directories visited by the
`while let Some(parent) = current.parent()` climbing loops of
`find_project_root`. -/
def ancestorsDesc (p : FPath) : List FPath :=
  (List.range p.length).reverse.map (fun i => p.take i)

/-- `HashSet::insert` on the discovered-project set, keeping insertion order. -/
def insertPath (s : List FPath) (p : FPath) : List FPath :=
  if p ∈ s then s else s ++ [p]

/-- The filesystem as seen through the synchronous and asynchronous file
tests used by `finder.rs`. -/
structure FS where
  isDir : FPath → Bool
  pathExists : FPath → Bool
  content : FPath → Option String

/-- The external `fd` binary (Search Provider): for each base directory, the
outcome of the git-directory search and of the combined marker-file search.
`Except.error` models a spawn/IO failure; an `Except.ok (lines, success)`
models a run that produced `lines` on stdout and exited with the given
status. -/
structure SearchProvider where
  gitCmd : FPath → Except String (List FPath × Bool)
  filesCmd : FPath → Except String (List FPath × Bool)

/-- `ProjectFinderError` from `errors.rs`. -/
inductive PFError where
  | dependencyNotFound (s : String)
  | commandExecutionFailed (s : String)
  | pathNotFound (p : FPath)
  | ioError (s : String)
  | utf8Error (s : String)
deriving DecidableEq, Repr

/-- Does the character list `t` occur contiguously inside `s`? (substring
containment, used to embed unanchored literal regexes). -/
def occursIn (t : List Char) : List Char → Bool
  | [] => t.isEmpty
  | c :: rest => t.isPrefixOf (c :: rest) || occursIn t rest

/-- The fixed regular expressions of the source, as an inductive pattern
type. -/
inductive Pat where
  /-- `^\[workspace\]` — no `(?m)` flag, so `^` anchors at the start of the
  whole content. -/
  | caretWorkspace
  /-- an unanchored alternation of literal strings, e.g.
  `("workspaces"|"workspace")`. -/
  | substrAny (subs : List String)
  /-- `.` — matches iff the content has at least one non-newline character. -/
  | anyChar
deriving DecidableEq, Repr

/-- `Regex::is_match` for the patterns of `Pat`, with the semantics of the
Rust `regex` crate (default flags: `^` matches only at the haystack start,
`.` matches any character except `\n`). -/
def matchPat : Pat → String → Bool
  | .caretWorkspace, s => "[workspace]".data.isPrefixOf s.data
  | .substrAny l, s => l.any (fun t => occursIn t.data s.data)
  | .anyChar, s => s.data.any (fun c => c ≠ '\n')

/-- `MarkerType` from `marker.rs`. -/
inductive MarkerType where
  | PackageJson
  | CargoToml
  | DenoJson
  | BuildFile (name : String)
  | OtherConfig (name : String)
deriving DecidableEq, Repr

/-- `MarkerType::from_str` (`impl FromStr for MarkerType`): the error type is
`Infallible`, embedded as `Empty`; the body is `Ok(match s { ... })`. -/
def MarkerType.from_str (s : String) : Except Empty MarkerType :=
  .ok (if s == "package.json" then .PackageJson
    else if s == "Cargo.toml" then .CargoToml
    else if s == "deno.json" || s == "deno.jsonc" then .DenoJson
    else if s == "Makefile" || s == "CMakeLists.txt" || s == "justfile" || s == "Justfile" then
      .BuildFile s
    else .OtherConfig s)

/-- `MARKER_PATTERNS` from `finder.rs`. -/
def MARKER_PATTERNS : List String :=
  ["package.json", "pnpm-workspace.yaml", "lerna.json", "Cargo.toml", "go.mod",
   "pyproject.toml", "CMakeLists.txt", "Makefile", "justfile", "Justfile",
   "deno.json", "deno.jsonc", "bunfig.toml"]

/-- `grep_file_in_memory` from `commands.rs`: read the whole file (a read
failure becomes a `CommandExecutionFailed` error) and test the pattern. The
patterns used by the program are all valid regexes, so the
`Regex::new` failure branch is dead and not modelled. -/
def grep_file_in_memory (fs : FS) (file : FPath) (pattern : Pat) : Except PFError Bool :=
  match fs.content file with
  | none => .error (.commandExecutionFailed ("Failed to read file " ++ String.intercalate "/" file))
  | some c => .ok (matchPat pattern c)

/-- The result map built by `find_files`: one key per requested pattern, in
order, holding the streamed stdout lines whose file name equals that pattern
exactly. -/
def buildResults (patterns : List String) (lines : List FPath) : List (String × List FPath) :=
  patterns.map (fun p => (p, lines.filter (fun l => fileName? l == some p)))

/-- `find_files` from `commands.rs`: spawn `fd` (a spawn or stdout-read
failure propagates), stream its stdout into the per-pattern result map, then
wait; a non-zero exit status is only logged as a warning and the collected
results are returned unchanged. -/
def find_files (sp : SearchProvider) (dir : FPath) (patterns : List String) :
    Except PFError (List (String × List FPath)) :=
  match sp.filesCmd dir with
  | .error e => .error (.commandExecutionFailed e)
  | .ok (lines, _success) => .ok (buildResults patterns lines)

/-- `find_git_repos` from `commands.rs`: run `fd` for `^.git$` directories
(a spawn failure propagates); on a non-zero exit status log a warning and
return no results; otherwise return the parent of each found `.git`
directory. -/
def find_git_repos (sp : SearchProvider) (dir : FPath) : Except PFError (List FPath) :=
  match sp.gitCmd dir with
  | .error e => .error (.commandExecutionFailed e)
  | .ok (lines, success) =>
    if success then .ok (lines.filterMap parent?) else .ok []

/-- The `workspace_patterns` table of `is_workspace_root`: candidate file and
required content pattern, in source order. -/
def wsPatterns (dir : FPath) : List (FPath × Pat) :=
  [(dir ++ ["package.json"], .substrAny ["\"workspaces\"", "\"workspace\""]),
   (dir ++ ["deno.json"], .substrAny ["\"workspaces\"", "\"imports\""]),
   (dir ++ ["deno.jsonc"], .substrAny ["\"workspaces\"", "\"imports\""]),
   (dir ++ ["bunfig.toml"], .substrAny ["workspaces"]),
   (dir ++ ["Cargo.toml"], .caretWorkspace),
   (dir ++ ["rush.json"], .anyChar),
   (dir ++ ["nx.json"], .anyChar),
   (dir ++ ["turbo.json"], .anyChar)]

/-- The `workspace_files` list of `is_workspace_root`: files indicating a
workspace by mere existence, in source order. -/
def wsFiles (dir : FPath) : List FPath :=
  [dir ++ ["pnpm-workspace.yaml"], dir ++ ["lerna.json"], dir ++ ["yarn.lock"],
   dir ++ [".yarnrc.yml"], dir ++ ["workspace.json"]]

/-- The first `for` loop of `is_workspace_root`: for each (file, pattern)
pair in order, if the file exists, grep it (propagating read errors) and stop
with `true` on a match. -/
def checkWsPatterns (fs : FS) : List (FPath × Pat) → Except PFError Bool
  | [] => .ok false
  | (f, p) :: rest =>
    if fs.pathExists f then
      match grep_file_in_memory fs f p with
      | .error e => .error e
      | .ok true => .ok true
      | .ok false => checkWsPatterns fs rest
    else checkWsPatterns fs rest

/-- `is_workspace_root` from `finder.rs` (the memoizing `WorkspaceCache` is
write-once and idempotent, so the function it memoizes is embedded
directly): pattern table first, then the existence-only file list. -/
def is_workspace_root (fs : FS) (dir : FPath) : Except PFError Bool :=
  match checkWsPatterns fs (wsPatterns dir) with
  | .error e => .error e
  | .ok true => .ok true
  | .ok false => .ok ((wsFiles dir).any fs.pathExists)

/-- The `PackageJson | DenoJson` climbing loop of `find_project_root`, over
the strict-ancestor list: stop at the first workspace root, else at the
first `.git`-bearing ancestor. -/
def pkgClimb (fs : FS) : List FPath → Except PFError (Option FPath)
  | [] => .ok none
  | a :: rest =>
    match is_workspace_root fs a with
    | .error e => .error e
    | .ok true => .ok (some a)
    | .ok false =>
      if fs.isDir (a ++ [".git"]) then .ok (some a)
      else pkgClimb fs rest

/-- The `CargoToml` climbing loop of `find_project_root`: at each ancestor,
if a `Cargo.toml` exists there and greps for `^\[workspace\]` (the grep is
only performed when the file exists, and its read error propagates), stop;
else stop at a `.git`-bearing ancestor. -/
def cargoClimb (fs : FS) : List FPath → Except PFError (Option FPath)
  | [] => .ok none
  | a :: rest =>
    if fs.pathExists (a ++ ["Cargo.toml"]) then
      match grep_file_in_memory fs (a ++ ["Cargo.toml"]) .caretWorkspace with
      | .error e => .error e
      | .ok true => .ok (some a)
      | .ok false =>
        if fs.isDir (a ++ [".git"]) then .ok (some a)
        else cargoClimb fs rest
    else
      if fs.isDir (a ++ [".git"]) then .ok (some a)
      else cargoClimb fs rest

/-- The `BuildFile` climbing loop of `find_project_root`: track the highest
ancestor still holding a same-named build file, and stop at the first
`.git`-bearing ancestor.  Returns (final `highest_dir`, the `.git` ancestor
the loop broke at, if any). -/
def buildLoop (fs : FS) (name : String) : List FPath → FPath → FPath × Option FPath
  | [], highest => (highest, none)
  | a :: rest, highest =>
    let highest' := if fs.pathExists (a ++ [name]) then a else highest
    if fs.isDir (a ++ [".git"]) then (highest', some a)
    else buildLoop fs name rest highest'

/-- `find_project_root` from `finder.rs` (the memoizing `RootCache` is
write-once and idempotent, so the function it memoizes is embedded
directly).  `result` starts as `dir` and each category's loop may replace
it; for `BuildFile`, if the loop ended without touching `result` it becomes
the tracked highest build-file ancestor. -/
def find_project_root (fs : FS) (dir : FPath) (mt : MarkerType) : Except PFError FPath :=
  match mt with
  | .PackageJson | .DenoJson =>
    match pkgClimb fs (ancestorsDesc dir) with
    | .error e => .error e
    | .ok res => .ok (res.getD dir)
  | .CargoToml =>
    match cargoClimb fs (ancestorsDesc dir) with
    | .error e => .error e
    | .ok res => .ok (res.getD dir)
  | .BuildFile name =>
    let pr := buildLoop fs name (ancestorsDesc dir) dir
    let r0 := match pr.2 with
      | some g => g
      | none => dir
    .ok (if r0 = dir then pr.1 else r0)
  | .OtherConfig _ =>
    .ok (((ancestorsDesc dir).find? (fun a => fs.isDir (a ++ [".git"]))).getD dir)

/-- `process_marker` from `finder.rs`: classify the marker name (the
`Infallible` error is eliminated, mirroring the unreachable `expect`),
resolve the containing directory's project root, and insert it unless it
equals an existing entry or is a strict, non-direct-child descendant of
one. -/
def process_marker (fs : FS) (set : List FPath) (dir : FPath) (markerName : String) :
    Except PFError (List FPath) :=
  match MarkerType.from_str markerName with
  | .error e => e.elim
  | .ok mt =>
    match find_project_root fs dir mt with
    | .error e => .error e
    | .ok root =>
      let shouldAdd := !(set.any (fun k =>
        root == k || (k.isPrefixOf root && !(parent? root == some k))))
      .ok (if shouldAdd then insertPath set root else set)

/-- The `(marker name, containing directory)` pairs fed to `process_marker`
by the loops of `process_directory`: for each pattern, each matching path
with a parent. -/
def markerEntries (m : List (String × List FPath)) : List (FPath × String) :=
  m.flatMap (fun pr => pr.2.filterMap (fun path => (parent? path).map (fun d => (d, pr.1))))

/-- The marker-processing loops of `process_directory`: process each entry in
turn, stopping at (and surfacing) the first error; insertions made before
the error persist in the shared set. -/
def processMarkers (fs : FS) : List FPath → List (FPath × String) → List FPath × Option PFError
  | set, [] => (set, none)
  | set, (d, pat) :: rest =>
    match process_marker fs set d pat with
    | .ok newSet => processMarkers fs newSet rest
    | .error e => (set, some e)

/-- `process_directory` from `finder.rs`, as a transformer of the shared
discovered-project set: extend the set with the git-repository roots
(unconditionally), then run the combined marker-file search and process each
hit; the task's error, if any, is returned alongside the set state it left
behind. -/
def process_directory (sp : SearchProvider) (fs : FS) (set : List FPath) (dir : FPath) :
    List FPath × Option PFError :=
  match find_git_repos sp dir with
  | .error e => (set, some e)
  | .ok repos =>
    let set1 := repos.foldl insertPath set
    match find_files sp dir MARKER_PATTERNS with
    | .error e => (set1, some e)
    | .ok markerMap => processMarkers fs set1 (markerEntries markerMap)

/-- `Config` from `config.rs`. -/
structure Config where
  paths : List FPath
  depth : Nat
  verbose : Bool
  max_results : Nat

/-- The validation-and-spawn loop at the top of `find_projects` (source
lines 69-93): each configured path is checked with `is_dir` and, when the
check passes, a task for it is spawned **within the same loop iteration**;
the first failing path aborts the loop with `PathNotFound`.  Returns the
tasks spawned before the loop ended and the validation error, if any. -/
def validateAndSpawn (fs : FS) : List FPath → List FPath × Option PFError
  | [] => ([], none)
  | p :: rest =>
    if fs.isDir p then
      let pr := validateAndSpawn fs rest
      (p :: pr.1, pr.2)
    else ([], some (.pathNotFound p))

/-- The spawned tasks running against the shared discovered-project set,
with their errors collected in task order (the `join_all` aggregation of
`find_projects`). -/
def runTasks (sp : SearchProvider) (fs : FS) : List FPath → List FPath → List FPath × List PFError
  | set, [] => (set, [])
  | set, d :: rest =>
    let pr := process_directory sp fs set d
    let rec' := runTasks sp fs pr.1 rest
    match pr.2 with
    | some e => (rec'.1, e :: rec'.2)
    | none => rec'

/-- Strict lexicographic comparison of character lists (the order of Rust
string comparison, restricted to the code points actually compared). -/
def charListLtB : List Char → List Char → Bool
  | [], [] => false
  | [], _ :: _ => true
  | _ :: _, [] => false
  | a :: as, b :: bs => if a < b then true else if a = b then charListLtB as bs else false

/-- Strict comparison of path components (`OsStr` ordering). -/
def strLtB (a b : String) : Bool :=
  charListLtB a.data b.data

/-- The `Ord` instance of `PathBuf`: lexicographic comparison of the
component lists, `≤` form. -/
def pathLeB : FPath → FPath → Bool
  | [], _ => true
  | _ :: _, [] => false
  | a :: as, b :: bs => if strLtB a b then true else if a = b then pathLeB as bs else false

/-- One step of the sort: insert a path into an already sorted list. -/
def orderedInsertPath (p : FPath) : List FPath → List FPath
  | [] => [p]
  | q :: rest => if pathLeB p q then p :: q :: rest else q :: orderedInsertPath p rest

/-- The final sort of `find_projects`: `Vec::sort` on `PathBuf`, i.e. sorting
by lexicographic comparison of the component lists. -/
def sortPaths : List FPath → List FPath
  | [] => []
  | p :: rest => orderedInsertPath p (sortPaths rest)

/-- The tail of `find_projects` (source lines 118-134): sort the discovered
set, then truncate to `max_results` when that is positive and the list is
longer. -/
def finalizeProjects (set : List FPath) (maxResults : Nat) : List FPath :=
  let sorted := sortPaths set
  if 0 < maxResults ∧ maxResults < sorted.length then sorted.take maxResults else sorted

/-- `find_projects` from `finder.rs`: validate-and-spawn, run the tasks
against a fresh shared set, then fail with the first collected error iff
every task failed (`!errors.is_empty() && errors.len() == paths.len()`),
else return the sorted, truncated set. -/
def find_projects (sp : SearchProvider) (fs : FS) (cfg : Config) : Except PFError (List FPath) :=
  match validateAndSpawn fs cfg.paths with
  | (_, some e) => .error e
  | (spawned, none) =>
    let pr := runTasks sp fs [] spawned
    match pr.2 with
    | [] => .ok (finalizeProjects pr.1 cfg.max_results)
    | e :: rest =>
      if (e :: rest).length = cfg.paths.length then .error e
      else .ok (finalizeProjects pr.1 cfg.max_results)

/-- The discovered-project set a run of `find_projects` ends with (the state
of the shared set after all spawned tasks completed). -/
def discoveredSet (sp : SearchProvider) (fs : FS) (cfg : Config) : List FPath :=
  (runTasks sp fs [] (validateAndSpawn fs cfg.paths).1).1

/-- The stopping condition of the `CargoToml` climbing loop, as a predicate
on one ancestor: a `Cargo.toml` is present whose content matches
`^\[workspace\]` (i.e. starts with `[workspace]`), or a `.git` directory is
present. -/
def cargoStopB (fs : FS) (a : FPath) : Bool :=
  (fs.pathExists (a ++ ["Cargo.toml"]) &&
    matchPat .caretWorkspace ((fs.content (a ++ ["Cargo.toml"])).getD "")) ||
  fs.isDir (a ++ [".git"])

/-- Split a character list at newline characters. -/
def splitLines : List Char → List (List Char)
  | [] => [[]]
  | c :: rest =>
    if c = '\n' then [] :: splitLines rest
    else
      match splitLines rest with
      | [] => [[c]]
      | l :: ls => (c :: l) :: ls

/-- The spec's reading of the Cargo workspace test (for comparison with the
source behaviour): some line of the content begins with `[workspace]`. -/
def specWorkspaceHeaderAnyLine (s : String) : Bool :=
  (splitLines s.data).any (fun l => "[workspace]".data.isPrefixOf l)

/-- The spec's description of the final output stage: sort lexicographically,
then truncate to the maximum result count when it is positive. -/
def specSortTruncate (set : List FPath) (maxResults : Nat) : List FPath :=
  if 0 < maxResults then (sortPaths set).take maxResults else sortPaths set

/-- The spec's §4.5 subsumption relation: `b` is a strict descendant of `a`
that is not a direct child of `a`. -/
def specSubsumed (a b : FPath) : Prop :=
  a <+: b ∧ b ≠ a ∧ parent? b ≠ some a

/-- Claim C1 counterexample filesystem: `/r/a` holds the Cargo marker, `/r`
holds a `Cargo.toml` whose second line starts with `[workspace]`, and no
`.git` exists anywhere. -/
def c1fs : FS where
  isDir := fun _ => false
  pathExists := fun p => p == ["r", "Cargo.toml"]
  content := fun p =>
    if p == ["r", "Cargo.toml"] then some "[package]\nname = \"x\"\n[workspace]\nmembers = []\n"
    else none

/-- Claim C2 counterexample filesystem: `/ok` is a directory, `/bad` is not. -/
def c2fs : FS where
  isDir := fun p => p == ["ok"]
  pathExists := fun p => p == ["ok"]
  content := fun _ => none

/-- Claim C2 search provider: trivially empty successful searches. -/
def c2sp : SearchProvider where
  gitCmd := fun _ => .ok ([], true)
  filesCmd := fun _ => .ok ([], true)

/-- Claim C3 counterexample search provider: scanning `/r` finds `.git`
directories at `/r/.git` and `/r/a/b/.git`, and no marker files. -/
def c3sp : SearchProvider where
  gitCmd := fun d =>
    if d == ["r"] then .ok ([["r", ".git"], ["r", "a", "b", ".git"]], true) else .ok ([], true)
  filesCmd := fun _ => .ok ([], true)

/-- Claim C3 counterexample filesystem: `/r` is a directory. -/
def c3fs : FS where
  isDir := fun p => p == ["r"]
  pathExists := fun _ => false
  content := fun _ => none

/-- Claim C3 counterexample configuration: scan `/r`, no result limit. -/
def c3cfg : Config := ⟨[["r"]], 5, false, 0⟩

/-- Claim C3 amended-witness filesystem: nothing exists, so every marker
resolves to its own directory. -/
def c3wfs : FS where
  isDir := fun _ => false
  pathExists := fun _ => false
  content := fun _ => none

/-- Claim C4 counterexample search provider: in `/w` both searches exit with
a non-zero status, the file search after printing `/w/a/package.json`. -/
def c4sp : SearchProvider where
  gitCmd := fun _ => .ok ([["w", "g", ".git"]], false)
  filesCmd := fun _ => .ok ([["w", "a", "package.json"]], false)

/-- Claim C5 filesystem for the concrete build-file scenario: same-named
build files at `/root/a/b/Makefile` and `/root/a/Makefile`, no `.git`
anywhere. -/
def c5fs : FS where
  isDir := fun _ => false
  pathExists := fun p => p == ["root", "a", "b", "Makefile"] || p == ["root", "a", "Makefile"]
  content := fun _ => none

/-- Claim C6 witness search provider: scanning `/w` finds one `.git` at
`/w/p/.git` and no marker files. -/
def c6sp : SearchProvider where
  gitCmd := fun _ => .ok ([["w", "p", ".git"]], true)
  filesCmd := fun _ => .ok ([], true)

/-- Claim C6 witness filesystem: `/w` is a directory. -/
def c6fs : FS where
  isDir := fun p => p == ["w"]
  pathExists := fun _ => false
  content := fun _ => none

/-- Claim C6 witness configuration. -/
def c6cfg : Config := ⟨[["w"]], 5, false, 0⟩

/-- Claim C7 counterexample search provider: scanning `/p` succeeds finding
`/p/.git`; scanning `/q` finds `/q/.git` but then the marker-file search
fails to spawn. -/
def c7sp : SearchProvider where
  gitCmd := fun d =>
    if d == ["p"] then .ok ([["p", ".git"]], true)
    else .ok ([["q", ".git"]], true)
  filesCmd := fun d =>
    if d == ["p"] then .ok ([], true)
    else .error "Failed to spawn fd: no such file"

/-- Claim C7 counterexample filesystem: `/p` and `/q` are directories. -/
def c7fs : FS where
  isDir := fun p => p == ["p"] || p == ["q"]
  pathExists := fun _ => false
  content := fun _ => none

/-- Claim C7 counterexample configuration: scan `/p` then `/q`. -/
def c7cfg : Config := ⟨[["p"], ["q"]], 5, false, 0⟩

/-- Claim C7 amended-witness search provider: both configured paths fail at
the git search. -/
def c7wsp : SearchProvider where
  gitCmd := fun _ => .error "Failed to find git repositories: spawn error"
  filesCmd := fun _ => .ok ([], true)

/-- Claim C7 amended-witness configuration. -/
def c7wcfg : Config := ⟨[["p"], ["q"]], 5, false, 0⟩

/-- Claim C8 witness search provider: the file search under `/w` prints a
`package.json` hit, a `Cargo.toml` hit, and a stray file matching no
pattern. -/
def c8sp : SearchProvider where
  gitCmd := fun _ => .ok ([], true)
  filesCmd := fun _ =>
    .ok ([["w", "x", "package.json"], ["w", "Cargo.toml"], ["w", "x", "package.json5"]], true)

/-- Claim C10 witness filesystem: a `.git` directory exists at `/h/.git`. -/
def c10fs : FS where
  isDir := fun p => p == ["h", ".git"]
  pathExists := fun _ => false
  content := fun _ => none

theorem mem_insertPath {s : List FPath} {p x : FPath} :
    x ∈ insertPath s p ↔ x ∈ s ∨ x = p := by
  unfold insertPath
  split
  · constructor
    · exact Or.inl
    · rintro (h | rfl) <;> assumption
  · simp [List.mem_append]

theorem mem_ancestorsDesc {p a : FPath} :
    a ∈ ancestorsDesc p ↔ ∃ i, i < p.length ∧ a = p.take i := by
  unfold ancestorsDesc
  simp only [List.mem_map, List.mem_reverse, List.mem_range]
  constructor
  · rintro ⟨i, hi, rfl⟩
    exact ⟨i, hi, rfl⟩
  · rintro ⟨i, hi, rfl⟩
    exact ⟨i, hi, rfl⟩

theorem prefix_of_mem_ancestorsDesc {p a : FPath} (h : a ∈ ancestorsDesc p) : a <+: p := by
  obtain ⟨i, _, rfl⟩ := mem_ancestorsDesc.mp h
  exact List.take_prefix i p

theorem length_lt_of_mem_ancestorsDesc {p a : FPath} (h : a ∈ ancestorsDesc p) :
    a.length < p.length := by
  obtain ⟨i, hi, rfl⟩ := mem_ancestorsDesc.mp h
  simpa [List.length_take] using hi

theorem ne_of_mem_ancestorsDesc {p a : FPath} (h : a ∈ ancestorsDesc p) : a ≠ p := by
  intro heq
  exact absurd (heq ▸ length_lt_of_mem_ancestorsDesc h) (lt_irrefl _)

theorem buildLoop_snd (fs : FS) (name : String) :
    ∀ (ancs : List FPath) (h : FPath),
      (buildLoop fs name ancs h).2 = ancs.find? (fun a => fs.isDir (a ++ [".git"])) := by
  intro ancs
  induction ancs with
  | nil => intro h; simp [buildLoop]
  | cons a rest ih =>
    intro h
    by_cases hg : fs.isDir (a ++ [".git"]) = true
    · simp [buildLoop, hg]
    · simp only [Bool.not_eq_true] at hg
      simp [buildLoop, hg, ih]

theorem buildLoop_fst_of_none (fs : FS) (name : String) :
    ∀ (ancs : List FPath) (h : FPath),
      ancs.find? (fun a => fs.isDir (a ++ [".git"])) = none →
      (buildLoop fs name ancs h).1 =
        (ancs.reverse.find? (fun a => fs.pathExists (a ++ [name]))).getD h := by
  intro ancs
  induction ancs with
  | nil => intro h _; simp [buildLoop]
  | cons a rest ih =>
    intro h hnone
    rcases hgit : fs.isDir (a ++ [".git"]) with _ | _
    · have hrest : rest.find? (fun x => fs.isDir (x ++ [".git"])) = none := by
        simpa [List.find?_cons, hgit] using hnone
      rcases hfile : fs.pathExists (a ++ [name]) with _ | _ <;>
        · simp only [buildLoop, hgit, hfile, Bool.false_eq_true, if_false, if_true,
            List.reverse_cons, List.find?_append]
          rw [ih _ hrest]
          cases hr : rest.reverse.find? (fun x => fs.pathExists (x ++ [name])) with
          | none => simp [Option.or, List.find?_cons, hfile]
          | some x => simp [Option.or]
    · exact absurd hnone (by simp [List.find?_cons, hgit])

theorem buildLoop_fst_mem (fs : FS) (name : String) :
    ∀ (ancs : List FPath) (h : FPath),
      (buildLoop fs name ancs h).1 = h ∨ (buildLoop fs name ancs h).1 ∈ ancs := by
  intro ancs
  induction ancs with
  | nil => intro h; simp [buildLoop]
  | cons a rest ih =>
    intro h
    rcases hgit : fs.isDir (a ++ [".git"]) with _ | _ <;>
      rcases hfile : fs.pathExists (a ++ [name]) with _ | _
    · simp only [buildLoop, hgit, hfile, Bool.false_eq_true, if_false]
      rcases ih h with hh | hh
      · exact Or.inl hh
      · exact Or.inr (List.mem_cons_of_mem _ hh)
    · simp only [buildLoop, hgit, hfile, Bool.false_eq_true, if_false, if_true]
      rcases ih a with hh | hh
      · exact Or.inr (by rw [hh]; exact List.mem_cons_self _ _)
      · exact Or.inr (List.mem_cons_of_mem _ hh)
    · simp only [buildLoop, hgit, hfile, Bool.false_eq_true, if_false, if_true]
      simp
    · simp only [buildLoop, hgit, hfile, if_true]
      exact Or.inr (List.mem_cons_self _ _)

theorem cargoClimb_ok_some_mem (fs : FS) :
    ∀ {ancs : List FPath} {x : FPath}, cargoClimb fs ancs = .ok (some x) → x ∈ ancs := by
  intro ancs
  induction ancs with
  | nil => intro x h; simp [cargoClimb] at h
  | cons a rest ih =>
    intro x h
    rw [cargoClimb] at h
    split at h
    · split at h
      · cases h
      · cases h
        exact List.mem_cons_self _ _
      · split at h
        · cases h
          exact List.mem_cons_self _ _
        · exact List.mem_cons_of_mem _ (ih h)
    · split at h
      · cases h
        exact List.mem_cons_self _ _
      · exact List.mem_cons_of_mem _ (ih h)

theorem cargoClimb_char (fs : FS) :
    ∀ (ancs : List FPath),
      (∀ a ∈ ancs, fs.pathExists (a ++ ["Cargo.toml"]) = true →
        (fs.content (a ++ ["Cargo.toml"])).isSome) →
      cargoClimb fs ancs = .ok (ancs.find? (cargoStopB fs)) := by
  intro ancs
  induction ancs with
  | nil => intro _; simp [cargoClimb]
  | cons a rest ih =>
    intro hread
    have hrest : ∀ b ∈ rest, fs.pathExists (b ++ ["Cargo.toml"]) = true →
        (fs.content (b ++ ["Cargo.toml"])).isSome :=
      fun b hb => hread b (List.mem_cons_of_mem _ hb)
    rcases hex : fs.pathExists (a ++ ["Cargo.toml"]) with _ | _
    · have hstop : cargoStopB fs a = fs.isDir (a ++ [".git"]) := by
        simp [cargoStopB, hex]
      rcases hgit : fs.isDir (a ++ [".git"]) with _ | _
      · rw [cargoClimb, hex]
        simp only [Bool.false_eq_true, if_false, hgit]
        rw [ih hrest, List.find?_cons_of_neg _ (by simp [hstop, hgit])]
      · rw [cargoClimb, hex]
        simp only [Bool.false_eq_true, if_false, hgit, if_true]
        rw [List.find?_cons_of_pos _ (by simp [hstop, hgit])]
    · obtain ⟨c, hc⟩ := Option.isSome_iff_exists.mp
        (hread a (List.mem_cons_self _ _) hex)
      have hstop : cargoStopB fs a =
          (matchPat .caretWorkspace c || fs.isDir (a ++ [".git"])) := by
        simp [cargoStopB, hex, hc]
      rcases hm : matchPat .caretWorkspace c with _ | _
      · rcases hgit : fs.isDir (a ++ [".git"]) with _ | _
        · rw [cargoClimb, hex]
          simp only [if_true, grep_file_in_memory, hc, hm, Bool.false_eq_true, if_false, hgit]
          rw [ih hrest, List.find?_cons_of_neg _ (by simp [hstop, hm, hgit])]
        · rw [cargoClimb, hex]
          simp only [if_true, grep_file_in_memory, hc, hm, Bool.false_eq_true, if_false, hgit]
          rw [List.find?_cons_of_pos _ (by simp [hstop, hm, hgit])]
      · rw [cargoClimb, hex]
        simp only [if_true, grep_file_in_memory, hc, hm]
        rw [List.find?_cons_of_pos _ (by simp [hstop, hm])]

theorem pkgClimb_ok_some_mem (fs : FS) :
    ∀ {ancs : List FPath} {x : FPath}, pkgClimb fs ancs = .ok (some x) → x ∈ ancs := by
  intro ancs
  induction ancs with
  | nil => intro x h; simp [pkgClimb] at h
  | cons a rest ih =>
    intro x h
    rw [pkgClimb] at h
    rcases hw : is_workspace_root fs a with e | b
    · rw [hw] at h; cases h
    · rw [hw] at h
      cases b
      · simp only at h
        rcases hgit : fs.isDir (a ++ [".git"]) with _ | _ <;> rw [hgit] at h
        · simp only [Bool.false_eq_true, if_false] at h
          exact List.mem_cons_of_mem _ (ih h)
        · simp only [if_true] at h
          cases h
          exact List.mem_cons_self _ _
      · simp only at h
        cases h
        exact List.mem_cons_self _ _

theorem charListLtB_irrefl : ∀ x : List Char, charListLtB x x = false := by
  intro x
  induction x with
  | nil => rfl
  | cons a as ih => simp [charListLtB, ih]

theorem charListLtB_or_eq : ∀ x y : List Char,
    charListLtB x y = true ∨ charListLtB y x = true ∨ x = y := by
  intro x
  induction x with
  | nil =>
    intro y
    cases y with
    | nil => exact Or.inr (Or.inr rfl)
    | cons b bs => exact Or.inl rfl
  | cons a as ih =>
    intro y
    cases y with
    | nil => exact Or.inr (Or.inl rfl)
    | cons b bs =>
      rcases lt_trichotomy a b with hab | hab | hab
      · exact Or.inl (by simp [charListLtB, hab])
      · subst hab
        rcases ih bs with h | h | h
        · exact Or.inl (by simp [charListLtB, charListLtB_irrefl, h])
        · exact Or.inr (Or.inl (by simp [charListLtB, charListLtB_irrefl, h]))
        · exact Or.inr (Or.inr (by rw [h]))
      · exact Or.inr (Or.inl (by simp [charListLtB, hab]))

theorem charListLtB_trans : ∀ x y z : List Char,
    charListLtB x y = true → charListLtB y z = true → charListLtB x z = true := by
  intro x
  induction x with
  | nil =>
    intro y z hxy hyz
    cases y with
    | nil => cases hxy
    | cons b bs =>
      cases z with
      | nil => cases hyz
      | cons c cs => rfl
  | cons a as ih =>
    intro y z hxy hyz
    cases y with
    | nil => cases hxy
    | cons b bs =>
      cases z with
      | nil => cases hyz
      | cons c cs =>
        rw [charListLtB] at hxy hyz ⊢
        by_cases hab : a < b
        · by_cases hbc : b < c
          · rw [if_pos (lt_trans hab hbc)]
          · rw [if_neg hbc] at hyz
            by_cases hbec : b = c
            · rw [if_pos (hbec ▸ hab)]
            · rw [if_neg hbec] at hyz
              cases hyz
        · rw [if_neg hab] at hxy
          by_cases haeb : a = b
          · rw [if_pos haeb] at hxy
            by_cases hbc : b < c
            · rw [if_pos (haeb ▸ hbc)]
            · rw [if_neg hbc] at hyz
              by_cases hbec : b = c
              · rw [if_neg (show ¬a < c by rw [haeb, hbec]; exact lt_irrefl c),
                  if_pos (haeb.trans hbec)]
                rw [if_pos hbec] at hyz
                exact ih bs cs hxy hyz
              · rw [if_neg hbec] at hyz
                cases hyz
          · rw [if_neg haeb] at hxy
            cases hxy

theorem string_eq_of_data_eq {a b : String} (h : a.data = b.data) : a = b :=
  String.ext h

theorem pathLeB_total : ∀ p q : FPath, pathLeB p q = true ∨ pathLeB q p = true := by
  intro p
  induction p with
  | nil => intro q; exact Or.inl rfl
  | cons a as ih =>
    intro q
    cases q with
    | nil => exact Or.inr rfl
    | cons b bs =>
      rcases charListLtB_or_eq a.data b.data with h | h | h
      · exact Or.inl (by simp [pathLeB, strLtB, h])
      · exact Or.inr (by simp [pathLeB, strLtB, h])
      · have hab : a = b := string_eq_of_data_eq h
        subst hab
        rcases ih bs with hle | hle
        · exact Or.inl (by simp [pathLeB, strLtB, charListLtB_irrefl, hle])
        · exact Or.inr (by simp [pathLeB, strLtB, charListLtB_irrefl, hle])

theorem pathLeB_trans : ∀ p q r : FPath,
    pathLeB p q = true → pathLeB q r = true → pathLeB p r = true := by
  intro p
  induction p with
  | nil => intro q r _ _; rfl
  | cons a as ih =>
    intro q r hpq hqr
    cases q with
    | nil => cases hpq
    | cons b bs =>
      cases r with
      | nil => cases hqr
      | cons c cs =>
        rw [pathLeB] at hpq hqr ⊢
        by_cases hab : strLtB a b = true
        · rw [if_pos hab] at hpq
          by_cases hbc : strLtB b c = true
          · rw [if_pos (show strLtB a c = true from charListLtB_trans _ _ _ hab hbc)]
          · rw [if_neg hbc] at hqr
            by_cases hbec : b = c
            · rw [if_pos (hbec ▸ hab)]
            · rw [if_neg hbec] at hqr
              cases hqr
        · rw [if_neg hab] at hpq
          by_cases haeb : a = b
          · rw [if_pos haeb] at hpq
            by_cases hbc : strLtB b c = true
            · rw [if_pos (haeb ▸ hbc)]
            · rw [if_neg hbc] at hqr
              by_cases hbec : b = c
              · rw [if_neg (by rw [haeb, hbec]; exact by simp [strLtB, charListLtB_irrefl]),
                  if_pos (haeb.trans hbec)]
                rw [if_pos hbec] at hqr
                exact ih bs cs hpq hqr
              · rw [if_neg hbec] at hqr
                cases hqr
          · rw [if_neg haeb] at hpq
            cases hpq

theorem orderedInsertPath_perm (p : FPath) :
    ∀ l : List FPath, List.Perm (orderedInsertPath p l) (p :: l) := by
  intro l
  induction l with
  | nil => exact List.Perm.refl _
  | cons q rest ih =>
    rw [orderedInsertPath]
    by_cases h : pathLeB p q = true
    · rw [if_pos h]
    · rw [if_neg h]
      exact (ih.cons q).trans (List.Perm.swap p q rest)

theorem mem_orderedInsertPath {p x : FPath} :
    ∀ {l : List FPath}, x ∈ orderedInsertPath p l → x = p ∨ x ∈ l := by
  intro l hx
  have := (orderedInsertPath_perm p l).mem_iff.mp hx
  simpa using this

theorem pairwise_orderedInsertPath (p : FPath) :
    ∀ l : List FPath, l.Pairwise (fun a b => pathLeB a b = true) →
      (orderedInsertPath p l).Pairwise (fun a b => pathLeB a b = true) := by
  intro l
  induction l with
  | nil => intro _; simp [orderedInsertPath]
  | cons q rest ih =>
    intro hp
    rw [List.pairwise_cons] at hp
    obtain ⟨hq, hrest⟩ := hp
    rw [orderedInsertPath]
    by_cases h : pathLeB p q = true
    · rw [if_pos h]
      rw [List.pairwise_cons]
      refine ⟨?_, List.pairwise_cons.mpr ⟨hq, hrest⟩⟩
      intro x hx
      rcases List.mem_cons.mp hx with rfl | hx
      · exact h
      · exact pathLeB_trans _ _ _ h (hq x hx)
    · rw [if_neg h]
      rw [List.pairwise_cons]
      refine ⟨?_, ih hrest⟩
      intro x hx
      rcases mem_orderedInsertPath hx with rfl | hx
      · rcases pathLeB_total q x with hh | hh
        · exact hh
        · exact absurd hh h
      · exact hq x hx

theorem sortPaths_perm : ∀ s : List FPath, List.Perm (sortPaths s) s := by
  intro s
  induction s with
  | nil => exact List.Perm.refl _
  | cons p rest ih =>
    rw [sortPaths]
    exact (orderedInsertPath_perm p (sortPaths rest)).trans (ih.cons p)

theorem sortPaths_pairwise : ∀ s : List FPath,
    (sortPaths s).Pairwise (fun a b => pathLeB a b = true) := by
  intro s
  induction s with
  | nil => simp [sortPaths]
  | cons p rest ih =>
    rw [sortPaths]
    exact pairwise_orderedInsertPath p _ ih

theorem validateAndSpawn_char (fs : FS) :
    ∀ (paths : List FPath) (q : FPath),
      paths.find? (fun p => !fs.isDir p) = some q →
      validateAndSpawn fs paths = (paths.takeWhile fs.isDir, some (.pathNotFound q)) := by
  intro paths
  induction paths with
  | nil => intro q h; simp at h
  | cons p rest ih =>
    intro q h
    rcases hd : fs.isDir p with _ | _
    · rw [List.find?_cons_of_pos _ (by simp [hd])] at h
      cases h
      simp [validateAndSpawn, hd, List.takeWhile_cons]
    · rw [List.find?_cons_of_neg _ (by simp [hd])] at h
      simp [validateAndSpawn, hd, ih _ h, List.takeWhile_cons]

/-- Claim C1 (corrected), counterexample: `/r/Cargo.toml` has a line that
begins with `[workspace]` (`specWorkspaceHeaderAnyLine` holds), yet the
source regex `^\[workspace\]` does not match (no multi-line flag, so `^`
anchors only at the start of the content), and resolving the Cargo marker in
`/r/a` returns `/r/a` itself rather than the ancestor `/r` the claim
predicts. -/
theorem claim_C1_counterexample :
    specWorkspaceHeaderAnyLine ((c1fs.content ["r", "Cargo.toml"]).getD "") = true ∧
    matchPat .caretWorkspace ((c1fs.content ["r", "Cargo.toml"]).getD "") = false ∧
    find_project_root c1fs ["r", "a"] .CargoToml = .ok ["r", "a"] ∧
    (["r", "a"] : FPath) ≠ ["r"] :=
  ⟨rfl, rfl, rfl, by decide⟩

/-- Claim C1 (corrected), amended: for every directory whose ancestors'
`Cargo.toml` files are readable, `find_project_root` with the `CargoToml`
category stops at the first strict ancestor that either contains a
`Cargo.toml` whose content *starts with* `[workspace]` (the `^` anchor
matches only the beginning of the file content, not the start of every
line) or contains a `.git` directory — the Cargo test being performed
before the `.git` test — and returns the directory itself when no ancestor
qualifies. -/
theorem claim_C1_amended : ∀ (fs : FS) (dir : FPath),
    (∀ a ∈ ancestorsDesc dir, fs.pathExists (a ++ ["Cargo.toml"]) = true →
      (fs.content (a ++ ["Cargo.toml"])).isSome) →
    find_project_root fs dir .CargoToml =
      .ok (((ancestorsDesc dir).find? (cargoStopB fs)).getD dir) := by
  intro fs dir hread
  simp only [find_project_root, cargoClimb_char fs _ hread]

/-- Claim C1 amended, witness at the counterexample filesystem: the
characterization evaluates concretely at `/r/a`. -/
theorem claim_C1_amended_witness :
    find_project_root c1fs ["r", "a"] .CargoToml =
      .ok (((ancestorsDesc ["r", "a"]).find? (cargoStopB c1fs)).getD ["r", "a"]) :=
  claim_C1_amended c1fs ["r", "a"] (by decide)

/-- Claim C2 (corrected), counterexample: with configured paths
`[/ok, /bad]` where only `/ok` is a directory, the validation loop spawns
the task for `/ok` *before* checking `/bad`, so a scan task is spawned
although validation of all configured paths never completes. -/
theorem claim_C2_counterexample :
    validateAndSpawn c2fs [["ok"], ["bad"]] = ([["ok"]], some (.pathNotFound ["bad"])) ∧
    ([["ok"]] : List (List String)) ≠ [] :=
  ⟨rfl, by decide⟩

/-- Claim C2 (corrected), amended: when some configured path is not an
existing directory, `find_projects` fails with `PathNotFound` for the
*first* such entry; however, validation is interleaved with spawning — the
tasks for the valid entries preceding the failing one are already spawned
when the failing entry is checked (they are exactly the longest valid
prefix of the path list). -/
theorem claim_C2_amended : ∀ (sp : SearchProvider) (fs : FS) (cfg : Config) (q : FPath),
    cfg.paths.find? (fun p => !fs.isDir p) = some q →
    validateAndSpawn fs cfg.paths = (cfg.paths.takeWhile fs.isDir, some (.pathNotFound q)) ∧
    find_projects sp fs cfg = .error (.pathNotFound q) := by
  intro sp fs cfg q h
  have hv := validateAndSpawn_char fs cfg.paths q h
  exact ⟨hv, by simp only [find_projects, hv]⟩

/-- Claim C2 amended, witness: the amended statement evaluates concretely on
the two-path configuration `[/ok, /bad]`. -/
theorem claim_C2_amended_witness :
    validateAndSpawn c2fs [["ok"], ["bad"]] =
      ([["ok"], ["bad"]].takeWhile c2fs.isDir, some (.pathNotFound ["bad"])) ∧
    find_projects c2sp c2fs ⟨[["ok"], ["bad"]], 5, false, 0⟩ = .error (.pathNotFound ["bad"]) :=
  claim_C2_amended c2sp c2fs ⟨[["ok"], ["bad"]], 5, false, 0⟩ ["bad"] (by decide)

/-- Claim C3 (corrected), counterexample: scanning `/r` with nested git
repositories at `/r` and `/r/a/b`, the final list contains both `A = /r`
and `B = /r/a/b`, although `A` is a strict ancestor of `B` and `B` is not a
direct child of `A` — git-repository roots are inserted unconditionally,
bypassing the dedup rule. -/
theorem claim_C3_counterexample :
    find_projects c3sp c3fs c3cfg = .ok [["r"], ["r", "a", "b"]] ∧
    (["r"] : FPath) <+: ["r", "a", "b"] ∧
    (["r", "a", "b"] : FPath) ≠ ["r"] ∧
    parent? ["r", "a", "b"] ≠ some ["r"] :=
  ⟨rfl, ⟨["a", "b"], rfl⟩, by decide, by decide⟩

/-- Claim C3 (corrected), amended: the subsumption rule is enforced only at
marker-insertion time against the entries already present — a root newly
inserted by `process_marker` is never a strict, non-direct-child descendant
of an entry that was in the set at that moment.  Git-repository roots
bypass the rule entirely, and an ancestor discovered after a descendant does
not evict it, so the final set can still contain such pairs. -/
theorem claim_C3_amended : ∀ (fs : FS) (set : List FPath) (dir : FPath) (name : String)
    (set2 : List FPath),
    process_marker fs set dir name = .ok set2 →
    ∀ r ∈ set2, r ∈ set ∨ ∀ k ∈ set, ¬ specSubsumed k r := by
  intro fs set dir name set2 h r hr
  simp only [process_marker, MarkerType.from_str] at h
  split at h
  · cases h
  · rcases hadd : (!(set.any (fun k =>
        (_ : FPath) == k || (k.isPrefixOf _ && !(parent? _ == some k))))) with _ | _
    rotate_left
    rotate_left
    all_goals rw [hadd] at h
    · simp only [Bool.false_eq_true, if_false] at h
      cases h
      exact Or.inl hr
    · simp only [if_true] at h
      cases h
      rcases mem_insertPath.mp hr with hmem | rfl
      · exact Or.inl hmem
      · refine Or.inr ?_
        intro k hk hsub
        obtain ⟨hpre, hne, hnp⟩ := hsub
        rw [Bool.not_eq_true', List.any_eq_false] at hadd
        refine hadd k hk ?_
        simp only [Bool.or_eq_true, Bool.and_eq_true, beq_iff_eq, Bool.not_eq_true',
          List.isPrefixOf_iff_prefix]
        refine Or.inr ⟨hpre, ?_⟩
        simp [beq_eq_false_iff_ne, hnp]

/-- Claim C3 amended, witness: inserting the root `/d` into the set
`{/x}` via a marker is allowed and `/d` is not subsumed by `/x`. -/
theorem claim_C3_amended_witness : ¬ specSubsumed [("x" : String)] ["d"] := by
  have h := claim_C3_amended c3wfs [["x"]] ["d"] "go.mod" [["x"], ["d"]] rfl ["d"] (by decide)
  rcases h with h | h
  · exact absurd h (by decide)
  · exact h ["x"] (by decide)

/-- Claim C4 (corrected), counterexample: the file search under `/w` exits
with a non-zero status after printing `/w/a/package.json`; `find_files`
still returns that path under its pattern, so a failed search *does*
contribute results, contrary to the claim. -/
theorem claim_C4_counterexample :
    c4sp.filesCmd ["w"] = .ok ([["w", "a", "package.json"]], false) ∧
    find_files c4sp ["w"] ["package.json"] =
      .ok [("package.json", [["w", "a", "package.json"]])] ∧
    [("package.json", [["w", "a", "package.json"]])] ≠
      [(("package.json" : String), ([] : List FPath))] :=
  ⟨rfl, rfl, by decide⟩

/-- Claim C4 (corrected), amended: a search subprocess exiting with a
non-zero status is never fatal — both functions return `Ok` and only log a
warning — but while `find_git_repos` contributes no results on failure,
`find_files` returns the matches already streamed from the process's
standard output before it exited, which may be nonempty. -/
theorem claim_C4_amended : ∀ (sp : SearchProvider) (dir : FPath) (patterns : List String)
    (glines flines : List FPath),
    sp.gitCmd dir = .ok (glines, false) →
    sp.filesCmd dir = .ok (flines, false) →
    find_git_repos sp dir = .ok [] ∧
    find_files sp dir patterns = .ok (buildResults patterns flines) := by
  intro sp dir patterns glines flines hg hf
  constructor
  · simp [find_git_repos, hg]
  · simp [find_files, hf]

/-- Claim C4 amended, witness: both searches under `/w` fail with non-zero
status; the amended behaviour evaluates concretely. -/
theorem claim_C4_amended_witness :
    find_git_repos c4sp ["w"] = .ok [] ∧
    find_files c4sp ["w"] MARKER_PATTERNS =
      .ok (buildResults MARKER_PATTERNS [["w", "a", "package.json"]]) :=
  claim_C4_amended c4sp ["w"] MARKER_PATTERNS [["w", "g", ".git"]]
    [["w", "a", "package.json"]] rfl rfl

/-- Claim C5 (confirmed): for every `BuildFile(name)` marker in `dir`, if
some strict ancestor contains a `.git` directory, `find_project_root`
returns the nearest such ancestor (the first hit walking the strict
ancestors nearest-first); otherwise it returns the topmost strict ancestor
containing a same-named file (the first hit walking the strict ancestors
topmost-first), or `dir` itself when none does.  In particular, with
`Makefile`s at `/root/a/b` and `/root/a` and no `.git` anywhere, resolving
from `/root/a/b` yields `/root/a`. -/
theorem claim_C5_buildfile :
    (∀ (fs : FS) (dir : FPath) (name : String),
      find_project_root fs dir (.BuildFile name) =
        .ok (match (ancestorsDesc dir).find? (fun a => fs.isDir (a ++ [".git"])) with
          | some g => g
          | none =>
            ((ancestorsDesc dir).reverse.find?
              (fun a => fs.pathExists (a ++ [name]))).getD dir)) ∧
    find_project_root c5fs ["root", "a", "b"] (.BuildFile "Makefile") = .ok ["root", "a"] := by
  constructor
  · intro fs dir name
    simp only [find_project_root]
    have hsnd := buildLoop_snd fs name (ancestorsDesc dir) dir
    cases hf : (ancestorsDesc dir).find? (fun a => fs.isDir (a ++ [".git"])) with
    | none =>
      rw [hf] at hsnd
      rw [hsnd]
      rw [buildLoop_fst_of_none fs name (ancestorsDesc dir) dir hf]
      simp
    | some g =>
      rw [hf] at hsnd
      rw [hsnd]
      have hne : g ≠ dir := ne_of_mem_ancestorsDesc (List.mem_of_find?_eq_some hf)
      simp only [if_neg hne]
  · rfl

/-- Claim C6 (confirmed): the list returned by `find_projects` is the
discovered-project set sorted lexicographically by path and truncated to the
configured maximum when that maximum is positive (the full sorted list when
it is zero): the source's conditional truncation equals sort-then-take, the
sort produces a lexicographically ordered permutation of the set, and a
successful run returns exactly that finalization of its discovered set. -/
theorem claim_C6_sort_truncate :
    (∀ (set : List FPath) (n : Nat), finalizeProjects set n = specSortTruncate set n) ∧
    (∀ set : List FPath, (sortPaths set).Pairwise (fun a b => pathLeB a b = true)) ∧
    (∀ set : List FPath, List.Perm (sortPaths set) set) ∧
    (∀ (sp : SearchProvider) (fs : FS) (cfg : Config) (l : List FPath),
      find_projects sp fs cfg = .ok l →
      l = finalizeProjects (discoveredSet sp fs cfg) cfg.max_results) := by
  refine ⟨?_, sortPaths_pairwise, sortPaths_perm, ?_⟩
  · intro set n
    rw [finalizeProjects, specSortTruncate]
    by_cases h0 : 0 < n
    · by_cases hlen : n < (sortPaths set).length
      · rw [if_pos ⟨h0, hlen⟩, if_pos h0]
      · rw [if_neg (by intro hc; exact hlen hc.2), if_pos h0,
          List.take_of_length_le (le_of_not_lt hlen)]
    · rw [if_neg (by intro hc; exact h0 hc.1), if_neg h0]
  · intro sp fs cfg l hok
    rcases hv : validateAndSpawn fs cfg.paths with ⟨spawned, err⟩
    rw [discoveredSet, hv]
    simp only [find_projects, hv] at hok
    cases err with
    | some e => cases hok
    | none =>
      simp only at hok
      split at hok
      · cases hok
        rfl
      · split at hok
        · cases hok
        · cases hok
          rfl

/-- Claim C6 witness: the finalization law evaluates concretely on a run
discovering the single project `/w/p`. -/
theorem claim_C6_witness :
    [[("w" : String), "p"]] = finalizeProjects (discoveredSet c6sp c6fs c6cfg) c6cfg.max_results :=
  claim_C6_sort_truncate.2.2.2 c6sp c6fs c6cfg [["w", "p"]] rfl

/-- Claim C7 (corrected), counterexample: with tasks for `/p` (succeeds,
contributing `/p`) and `/q` (inserts the git root `/q`, then fails at the
marker-file search), `find_projects` returns `Ok [/p, /q]` — the failed
task's pre-failure insertion `/q` is part of the returned value, so the
failure does more than omit that path's contribution. -/
theorem claim_C7_counterexample :
    find_projects c7sp c7fs c7cfg = .ok [["p"], ["q"]] ∧
    (runTasks c7sp c7fs [] [["p"], ["q"]]).2 =
      [.commandExecutionFailed "Failed to spawn fd: no such file"] ∧
    (process_directory c7sp c7fs [] ["p"]).1 = [["p"]] ∧
    (process_directory c7sp c7fs [] ["p"]).2 = none ∧
    (["q"] : FPath) ∈ [["p"], ["q"]] :=
  ⟨rfl, rfl, rfl, rfl, by decide⟩

/-- Claim C7 (corrected), amended: after all tasks complete, if every task
failed (as many collected errors as configured paths) the first task's
failure is returned; if at least one task succeeded, `Ok` is returned with
the finalized shared set — which holds the successful tasks' contributions
together with any insertions the failed tasks made before failing. -/
theorem claim_C7_amended : ∀ (sp : SearchProvider) (fs : FS) (cfg : Config)
    (set : List FPath) (e : PFError) (rest : List PFError),
    validateAndSpawn fs cfg.paths = (cfg.paths, none) →
    (runTasks sp fs [] cfg.paths = (set, e :: rest) →
      ((e :: rest).length = cfg.paths.length → find_projects sp fs cfg = .error e) ∧
      ((e :: rest).length ≠ cfg.paths.length →
        find_projects sp fs cfg = .ok (finalizeProjects set cfg.max_results))) ∧
    (runTasks sp fs [] cfg.paths = (set, []) →
      find_projects sp fs cfg = .ok (finalizeProjects set cfg.max_results)) := by
  intro sp fs cfg set e rest hv
  constructor
  · intro hrun
    constructor
    · intro hlen
      simp only [find_projects, hv, hrun, if_pos hlen]
    · intro hlen
      simp only [find_projects, hv, hrun, if_neg hlen]
  · intro hrun
    simp only [find_projects, hv, hrun]

/-- Claim C7 amended, witness: when both configured tasks fail at the git
search, `find_projects` surfaces the first task's failure. -/
theorem claim_C7_amended_witness :
    find_projects c7wsp c7fs c7wcfg =
      .error (.commandExecutionFailed "Failed to find git repositories: spawn error") :=
  ((claim_C7_amended c7wsp c7fs c7wcfg []
      (.commandExecutionFailed "Failed to find git repositories: spawn error")
      [.commandExecutionFailed "Failed to find git repositories: spawn error"] rfl).1 rfl).1 rfl

/-- Claim C8 (confirmed): `find_files` returns a map whose key list is
exactly the requested pattern list; a discovered path is recorded only under
the key equal to its file name (never a partial match), and a pattern whose
name matches no streamed file maps to the empty list. -/
theorem claim_C8_find_files_map : ∀ (sp : SearchProvider) (dir : FPath)
    (patterns : List String) (lines : List FPath) (st : Bool)
    (m : List (String × List FPath)),
    sp.filesCmd dir = .ok (lines, st) →
    find_files sp dir patterns = .ok m →
    m.map Prod.fst = patterns ∧
    (∀ pr ∈ m, ∀ q ∈ pr.2, fileName? q = some pr.1) ∧
    (∀ p ∈ patterns, (∀ l ∈ lines, fileName? l ≠ some p) → (p, ([] : List FPath)) ∈ m) := by
  intro sp dir patterns lines st m hcmd hff
  rw [find_files, hcmd] at hff
  cases hff
  refine ⟨?_, ?_, ?_⟩
  · rw [buildResults]
    have hid : (Prod.fst ∘ fun p => (p, lines.filter (fun l => fileName? l == some p))) =
        fun p : String => p := rfl
    rw [List.map_map, hid]
    simp
  · intro pr hpr q hq
    rw [buildResults] at hpr
    obtain ⟨p, _, rfl⟩ := List.mem_map.mp hpr
    have hfil := List.mem_filter.mp hq
    simpa using hfil.2
  · intro p hp hnone
    rw [buildResults]
    refine List.mem_map.mpr ⟨p, hp, ?_⟩
    have hfil : lines.filter (fun l => fileName? l == some p) = [] := by
      rw [List.filter_eq_nil_iff]
      intro a ha
      simp [hnone a ha]
    rw [hfil]

/-- Claim C8 witness: on a stream containing a `package.json` hit, a
`Cargo.toml` hit, and a stray `package.json5` (which must not be recorded
under `package.json`), the map properties evaluate concretely. -/
theorem claim_C8_witness :
    ([("package.json", [[("w" : String), "x", "package.json"]]),
      ("pnpm-workspace.yaml", ([] : List FPath))].map Prod.fst
        = ["package.json", "pnpm-workspace.yaml"]) ∧
    (∀ pr ∈ [("package.json", [[("w" : String), "x", "package.json"]]),
      ("pnpm-workspace.yaml", ([] : List FPath))], ∀ q ∈ pr.2, fileName? q = some pr.1) ∧
    (∀ p ∈ ["package.json", "pnpm-workspace.yaml"],
      (∀ l ∈ [[("w" : String), "x", "package.json"], ["w", "Cargo.toml"],
        ["w", "x", "package.json5"]], fileName? l ≠ some p) →
      (p, ([] : List FPath)) ∈ [("package.json", [[("w" : String), "x", "package.json"]]),
        ("pnpm-workspace.yaml", ([] : List FPath))]) :=
  claim_C8_find_files_map c8sp ["w"] ["package.json", "pnpm-workspace.yaml"]
    [["w", "x", "package.json"], ["w", "Cargo.toml"], ["w", "x", "package.json5"]] true
    [("package.json", [["w", "x", "package.json"]]), ("pnpm-workspace.yaml", [])] rfl rfl

/-- Claim C9 (confirmed): parsing a marker file name never fails — the
error type is `Infallible` (embedded as `Empty`) and every input yields
`Ok`, unrecognized names mapping to `OtherConfig`; hence the `expect` in
`process_marker` can never panic. -/
theorem claim_C9_from_str_total :
    (∀ s : String, ∃ t : MarkerType, MarkerType.from_str s = .ok t) ∧
    (∀ s : String,
      s ∉ (["package.json", "Cargo.toml", "deno.json", "deno.jsonc", "Makefile",
        "CMakeLists.txt", "justfile", "Justfile"] : List String) →
      MarkerType.from_str s = .ok (.OtherConfig s)) := by
  constructor
  · intro s
    exact ⟨_, rfl⟩
  · intro s hs
    simp only [List.mem_cons, List.not_mem_nil, or_false, not_or] at hs
    obtain ⟨h1, h2, h3, h4, h5, h6, h7, h8⟩ := hs
    simp [MarkerType.from_str, h1, h2, h3, h4, h5, h6, h7, h8]

/-- Claim C9 witness: a name outside the recognized table parses to
`OtherConfig` of itself. -/
theorem claim_C9_witness :
    MarkerType.from_str "flake.nix" = .ok (.OtherConfig "flake.nix") :=
  claim_C9_from_str_total.2 "flake.nix" (by decide)

/-- Claim C10 (confirmed): for every filesystem, directory and marker
category, a successful `find_project_root` returns the directory itself or
one of its ancestors — the result is always a component-wise prefix of the
input directory, never a descendant or an unrelated path. -/
theorem claim_C10_root_is_ancestor : ∀ (fs : FS) (dir : FPath) (mt : MarkerType) (r : FPath),
    find_project_root fs dir mt = .ok r → r <+: dir := by
  intro fs dir mt r h
  cases mt with
  | PackageJson | DenoJson =>
    simp only [find_project_root] at h
    cases hp : pkgClimb fs (ancestorsDesc dir) with
    | error e => rw [hp] at h; cases h
    | ok res =>
      rw [hp] at h
      cases h
      cases res with
      | none => exact List.prefix_refl dir
      | some a => exact prefix_of_mem_ancestorsDesc (pkgClimb_ok_some_mem fs hp)
  | CargoToml =>
    simp only [find_project_root] at h
    cases hp : cargoClimb fs (ancestorsDesc dir) with
    | error e => rw [hp] at h; cases h
    | ok res =>
      rw [hp] at h
      cases h
      cases res with
      | none => exact List.prefix_refl dir
      | some a => exact prefix_of_mem_ancestorsDesc (cargoClimb_ok_some_mem fs hp)
  | BuildFile name =>
    simp only [find_project_root] at h
    cases h
    by_cases hr0 : (match (buildLoop fs name (ancestorsDesc dir) dir).2 with
        | some g => g
        | none => dir) = dir
    · rw [if_pos hr0]
      rcases buildLoop_fst_mem fs name (ancestorsDesc dir) dir with hm | hm
      · rw [hm]
      · exact prefix_of_mem_ancestorsDesc hm
    · rw [if_neg hr0]
      rcases hsnd : (buildLoop fs name (ancestorsDesc dir) dir).2 with _ | g
      · exfalso
        apply hr0
        rw [hsnd]
      · exact prefix_of_mem_ancestorsDesc (List.mem_of_find?_eq_some
          ((buildLoop_snd fs name (ancestorsDesc dir) dir).symm.trans hsnd))
  | OtherConfig nm =>
    simp only [find_project_root] at h
    cases h
    cases hf : (ancestorsDesc dir).find? (fun a => fs.isDir (a ++ [".git"])) with
    | none => exact List.prefix_refl dir
    | some a => exact prefix_of_mem_ancestorsDesc (List.mem_of_find?_eq_some hf)

/-- Claim C10 witness: resolving an `OtherConfig` marker in `/h/x` with a
git repository at `/h` yields `/h`, a prefix of `/h/x`. -/
theorem claim_C10_witness : ([("h" : String)] : FPath) <+: ["h", "x"] :=
  claim_C10_root_is_ancestor c10fs ["h", "x"] (.OtherConfig "go.mod") ["h"] rfl
